import Mathlib

/-!
Verification development for the ParadeDB executor-interception layer
(`pg_analytics/src/hooks/executor.rs`) and the BM25 search execution engine
(`pg_bm25/src/index/state.rs`).

The Rust source is shallowly embedded: pure control flow becomes Lean
functions, fallible calls become `Except`, panics become a distinct
`RunResult.panicked` outcome, and the observable side effects of
`executor_run` (flush, handler invocations, continuation invocation,
translation) are recorded as an explicit event trace.  External
collaborators that live outside the two embedded files (the DataFusion
parser, the write coordinator, the tantivy searcher, the schema compiler)
are passed in as explicit data, so every statement-routing decision made by
the embedded code itself is modelled exactly as written.
-/

namespace ParadeDB

/-- Errors of the `ParadeError` type, abstracted: the interceptor only ever
inspects success vs failure, except for the typed
`NotSupported::Update` failure which it constructs itself. -/
inductive PErr where
  | dataFusion (n : Nat) : PErr
  | notSupportedUpdate : PErr
  | other (n : Nat) : PErr
deriving DecidableEq, Repr

/-- Outcome of running a fallible Rust function: normal return, a
propagated `Err`, or a panic (Rust aborts the operation). -/
inductive RunResult (α : Type) where
  | ok (a : α) : RunResult α
  | err (e : PErr) : RunResult α
  | panicked : RunResult α
deriving DecidableEq, Repr

/-- Abstract parsed SQL statement produced by the dialect parser. -/
abbrev RawStmt := Nat

/-- Abstract engine-neutral logical plan. -/
abbrev LogicalPlan := Nat

/-- Embedding of `pg_sys::CmdType` as inspected by `executor_run`:
`CMD_INSERT`, `CMD_SELECT`, `CMD_DELETE`, `CMD_UPDATE`, and everything
else (utility and unknown commands, the `_` arm of the dispatch). -/
inductive CmdType where
  | insert
  | select
  | delete
  | update
  | otherCmd
deriving DecidableEq, Repr

/-- Raw source text of a statement.  Modelled as a list of characters so
that the case-insensitive bulk-load literal check computes. -/
abbrev QueryText := List Char

/-- Rust `String::to_lowercase`, character by character. -/
def lowerText (q : QueryText) : QueryText := q.map Char.toLower

/-- Rust `str::starts_with`. -/
def startsWithText (pre q : QueryText) : Bool := List.isPrefixOf pre q

/-- The bulk-load literal checked by the interceptor: `"copy"`. -/
def copyLit : QueryText := ['c', 'o', 'p', 'y']

/-- The statement as seen by the interceptor: the operation kind from the
query descriptor and the planned statement's range table.  `rtable = none`
models a null range-table pointer; each `Bool` in the list tags one
referenced relation as embedded-engine-owned (a deltalake "column" table)
or host-owned. -/
structure Stmt where
  operation : CmdType
  rtable : Option (List Bool)
deriving DecidableEq, Repr

/-- Observable side effects of one `executor_run` invocation, in order:
the blocking flush of pending writes, the three embedded handlers, the
invocation of the plan translator, and the invocation of the continuation
(`prev_hook`). -/
inductive Event where
  | flush
  | insertH
  | selectH
  | deleteH
  | translate
  | prevHook
deriving DecidableEq, Repr

/-- Outcomes of the external collaborators consumed by `executor_run`,
supplied as data: `needs_commit()`, `commit_writer()`,
`current_query_string(...)`, the three handlers, and the two fallible
stages inside `create_logical_plan` (`QueryContext::new()` and
`statement_to_plan`).  `parse` is the outcome of
`DFParser::parse_sql_with_dialect` on a given source text. -/
structure ExecEnv where
  needsCommit : Except PErr Bool
  commitWriter : Except PErr Unit
  currentQuery : Except PErr QueryText
  insertResult : Except PErr Unit
  selectResult : Except PErr Unit
  deleteResult : Except PErr Unit
  parse : QueryText → Except PErr (List RawStmt)
  ctxResult : Except PErr Unit
  planOf : RawStmt → Except PErr LogicalPlan

/-- Modelled from the spec: `hooks::handler::IsColumn` for a range table
(only its caller is in the sampled source).  Per §4.1 step 3 of the spec,
the interceptor delegates when "no relation in the range table is
embedded-engine-owned", so `is_column` is true iff some referenced
relation is embedded-engine-owned. -/
def is_column (rtable : Option (List Bool)) : Bool :=
  match rtable with
  | none => false
  | some rts => rts.any id

/-- Embedding of `create_logical_plan` (executor.rs lines 81-93): parse
the text with the dialect (propagating the parse error), index the first
statement of the returned list — `&ast[0]` panics when the list is empty —
then build the catalog context and resolve the statement to a plan,
propagating either failure. -/
def create_logical_plan (parseResult : Except PErr (List RawStmt))
    (ctxResult : Except PErr Unit)
    (planOf : RawStmt → Except PErr LogicalPlan) : RunResult LogicalPlan :=
  match parseResult with
  | Except.error e => RunResult.err e
  | Except.ok ast =>
    match ast with
    | [] => RunResult.panicked
    | statement :: _ =>
      match ctxResult with
      | Except.error e => RunResult.err e
      | Except.ok _ =>
        match planOf statement with
        | Except.error e => RunResult.err e
        | Except.ok plan => RunResult.ok plan

/-- Lift a handler outcome into the interceptor's return type. -/
def toRun : Except PErr Unit → RunResult Unit
  | Except.ok _ => RunResult.ok ()
  | Except.error e => RunResult.err e

/-- Embedding of `executor_run` (executor.rs lines 19-79).  Returns the
event trace of the invocation together with its result.  Control flow
mirrors the source exactly: flush pending writes first; extract the source
text; run the insert handler for every `CMD_INSERT`; then delegate to the
continuation when the range table is null, the operation is INSERT, no
relation is embedded-engine-owned, or the lowercased text starts with
`"copy"`; otherwise translate the text and dispatch on the operation. -/
def executor_run (env : ExecEnv) (stmt : Stmt) : List Event × RunResult Unit :=
  match env.needsCommit with
  | Except.error e => ([], RunResult.err e)
  | Except.ok nc =>
    let tr0 : List Event := if nc then [Event.flush] else []
    let flushRes : Except PErr Unit := if nc then env.commitWriter else Except.ok ()
    match flushRes with
    | Except.error e => (tr0, RunResult.err e)
    | Except.ok _ =>
      match env.currentQuery with
      | Except.error e => (tr0, RunResult.err e)
      | Except.ok q =>
        let tr1 : List Event :=
          if stmt.operation = CmdType.insert then tr0 ++ [Event.insertH] else tr0
        let insRes : Except PErr Unit :=
          if stmt.operation = CmdType.insert then env.insertResult else Except.ok ()
        match insRes with
        | Except.error e => (tr1, RunResult.err e)
        | Except.ok _ =>
          if stmt.rtable.isNone
              || decide (stmt.operation = CmdType.insert)
              || !(is_column stmt.rtable)
              || startsWithText copyLit (lowerText q) then
            (tr1 ++ [Event.prevHook], RunResult.ok ())
          else
            match create_logical_plan (env.parse q) env.ctxResult env.planOf with
            | RunResult.err _ => (tr1 ++ [Event.translate, Event.prevHook], RunResult.ok ())
            | RunResult.panicked => (tr1 ++ [Event.translate], RunResult.panicked)
            | RunResult.ok _ =>
              match stmt.operation with
              | CmdType.delete => (tr1 ++ [Event.translate, Event.deleteH], toRun env.deleteResult)
              | CmdType.select => (tr1 ++ [Event.translate, Event.selectH], toRun env.selectResult)
              | CmdType.update => (tr1 ++ [Event.translate], RunResult.err PErr.notSupportedUpdate)
              | _ => (tr1 ++ [Event.translate, Event.prevHook], RunResult.ok ())

/-- Number of occurrences of one event in a trace. -/
def countEvent (tr : List Event) (e : Event) : Nat :=
  (tr.filter fun x => decide (x = e)).length

/-! ## Search execution engine (`pg_bm25/src/index/state.rs`) -/

/-- The composite ranking score attached to every result: the original
BM25 relevance together with the external 64-bit key read from the
per-segment fast field.  The relevance value is carried through opaquely
(the embedded code never computes with it), so it is modelled as an
integer token. -/
structure SearchIndexScore where
  bm25 : Int
  key : Int
deriving DecidableEq, Repr

/-- A tantivy `DocAddress`: (segment ordinal, local document id), totally
ordered lexicographically. -/
structure DocAddress where
  segment_ord : Nat
  doc_id : Nat
deriving DecidableEq, Repr

/-- The strict lexicographic order on document addresses, the order used
by `doc_addr > *existing_doc_addr` in `search_dedup`. -/
def addrLt (a b : DocAddress) : Bool :=
  decide (a.segment_ord < b.segment_ord ∨
    (a.segment_ord = b.segment_ord ∧ a.doc_id < b.doc_id))

/-- One ranked result: composite score plus document address. -/
abbrev Entry := SearchIndexScore × DocAddress

/-- Modelled from the spec: `SearchConfig` (defined in `crate::schema`,
outside the sampled source) — "query descriptor: structured query
expression, optional result limit, optional offset".  The query expression
is abstract. -/
structure SearchConfig where
  query : Nat
  limit_rows : Option Nat
  offset_rows : Option Nat
deriving DecidableEq, Repr

/-- Modelled from the spec: the parts of `SearchIndex` that
`SearchState::new` and `search` consume — the snapshot bound by the
searcher (its total document count and, abstractly, the ranked descending
result sequence the tantivy collector produces for the compiled query),
and the outcome of compiling a query expression against the schema
(`into_tantivy_query`). -/
structure SearchIndex where
  numDocs : Nat
  ranked : List Entry
  compile : Nat → Except PErr Nat

/-- The per-invocation search execution context (state.rs lines 13-21),
restricted to the data the embedded algorithms read: the compiled query,
the bound snapshot (document count plus ranked sequence) and the config. -/
structure SearchState where
  tquery : Nat
  config : SearchConfig
  numDocs : Nat
  ranked : List Entry
deriving DecidableEq, Repr

/-- Embedding of `SearchState::new` (state.rs lines 24-42): compile the
config's query expression against the schema; a compilation failure hits
`unwrap_or_else(|err| panic!(..))` and aborts, so no error value is ever
returned to the caller. -/
def SearchState.new (search_index : SearchIndex) (config : SearchConfig) :
    RunResult SearchState :=
  match search_index.compile config.query with
  | Except.error _ => RunResult.panicked
  | Except.ok tq =>
    RunResult.ok
      { tquery := tq
        config := config
        numDocs := search_index.numDocs
        ranked := search_index.ranked }

/-- The effective limit computed by `search` (state.rs lines 73-83):
the explicit `limit_rows` if present, otherwise the snapshot's total
document count when positive, otherwise 1. -/
def effectiveLimit (config : SearchConfig) (numDocs : Nat) : Nat :=
  config.limit_rows.getD (if numDocs > 0 then numDocs else 1)

/-- The effective offset computed by `search` (state.rs line 85): the
explicit `offset_rows` or 0. -/
def effectiveOffset (config : SearchConfig) : Nat :=
  config.offset_rows.getD 0

/-- Embedding of `SearchState::search` (state.rs lines 71-110): compute
the effective limit and offset and run the ranked top-k retrieval.  The
tantivy collector `TopDocs::with_limit(limit).and_offset(offset)` is
external; its contract — skip `offset` ranked results, return at most
`limit` — is applied to the snapshot's ranked sequence. -/
def SearchState.search (st : SearchState) : List Entry :=
  ((st.ranked.drop (effectiveOffset st.config)).take
    (effectiveLimit st.config st.numDocs))

/-- The dedup working map `HashMap<i64, (SearchIndexScore, DocAddress)>`,
modelled as an association list with lookup semantics. -/
abbrev DedupMap := List (Int × Entry)

/-- Embedding of `HashMap::get`. -/
def mapLookup : DedupMap → Int → Option Entry
  | [], _ => none
  | p :: rest, k => if p.1 = k then some p.2 else mapLookup rest k

/-- Embedding of `HashMap::insert`, returning the updated map together with
`insert(..).is_none()` (whether the key was previously absent). -/
def mapInsert (m : DedupMap) (k : Int) (v : Entry) : DedupMap × Bool :=
  match mapLookup m k with
  | none => (m ++ [(k, v)], true)
  | some _ => (m.map fun p => if p.1 = k then (k, v) else p, false)

/-- Embedding of `HashMap::remove` of one key, map part. -/
def eraseKey (m : DedupMap) (k : Int) : DedupMap :=
  m.filter fun p => decide (p.1 ≠ k)

/-- The dedup fold of `search_dedup` (state.rs lines 121-131): for each
ranked result in order, keep it iff its key is new or its address is
strictly greater than the stored one; remember each key the first time it
is inserted. -/
def dedupLoop : List Entry → DedupMap → List Int → DedupMap × List Int
  | [], m, ord => (m, ord)
  | e :: rest, m, ord =>
    let key := e.1.key
    let isNewOrHigher : Bool :=
      match mapLookup m key with
      | some w => addrLt w.2 e.2
      | none => true
    if isNewOrHigher then
      let mi := mapInsert m key e
      dedupLoop rest mi.1 (if mi.2 then ord ++ [key] else ord)
    else
      dedupLoop rest m ord

/-- The output pass of `search_dedup` (state.rs lines 133-135):
`order_vec.into_iter().filter_map(|key| dedup_map.remove(&key))`. -/
def removeLoop : List Int → DedupMap → List Entry
  | [], _ => []
  | k :: ks, m =>
    match mapLookup m k with
    | none => removeLoop ks (eraseKey m k)
    | some v => v :: removeLoop ks (eraseKey m k)

/-- The deduplication applied by `search_dedup` to a ranked sequence. -/
def dedupList (results : List Entry) : List Entry :=
  let md := dedupLoop results [] []
  removeLoop md.2 md.1

/-- Embedding of `SearchState::search_dedup` (state.rs lines 116-136):
run `search`, fold by key, emit in first-seen key order. -/
def SearchState.search_dedup (st : SearchState) : List Entry :=
  dedupList st.search

/-- First-seen-order key sequence: the keys of a ranked sequence with
every later duplicate removed, `seen` being the keys already emitted. -/
def firstSeenFrom (seen : List Int) : List Int → List Int
  | [] => []
  | k :: ks => if k ∈ seen then firstSeenFrom seen ks else k :: firstSeenFrom (k :: seen) ks

/-- The keys of a sequence in first-seen order. -/
def firstSeen (ks : List Int) : List Int := firstSeenFrom [] ks

/-- Reference fold for the final map entry of one key: starting from the
current entry for `k`, each input entry with that key replaces the current
one iff its address is strictly greater. -/
def runKey (k : Int) : Option Entry → List Entry → Option Entry
  | cur, [] => cur
  | cur, e :: rest =>
    if e.1.key = k then
      runKey k
        (match cur with
         | none => some e
         | some c => if addrLt c.2 e.2 then some e else some c) rest
    else
      runKey k cur rest

/-! ## Concrete inputs used by counterexamples and witnesses -/

/-- An environment where every collaborator succeeds: no pending writes,
source text extraction succeeds, all handlers succeed, the dialect parses
the text to one statement and resolution succeeds. -/
def envAllOk : ExecEnv :=
  { needsCommit := Except.ok false
    commitWriter := Except.ok ()
    currentQuery := Except.ok ['i', 'n', 's', 'e', 'r', 't']
    insertResult := Except.ok ()
    selectResult := Except.ok ()
    deleteResult := Except.ok ()
    parse := fun _ => Except.ok [0]
    ctxResult := Except.ok ()
    planOf := fun s => Except.ok s }

/-- An INSERT statement whose single referenced relation is
embedded-engine-owned. -/
def stmtInsertEmbedded : Stmt := { operation := CmdType.insert, rtable := some [true] }

/-- Environment whose dialect rejects every source text. -/
def envParseFails : ExecEnv :=
  { envAllOk with
    currentQuery := Except.ok ['s', 'e', 'l', 'e', 'c', 't']
    parse := fun _ => Except.error (PErr.dataFusion 0) }

/-- A SELECT over an embedded-engine relation. -/
def stmtSelectEmbedded : Stmt := { operation := CmdType.select, rtable := some [true] }

/-- Environment for the UPDATE case: translation succeeds on the text
`"u"`. -/
def envUpdate : ExecEnv := { envAllOk with currentQuery := Except.ok ['u'] }

/-- An UPDATE over an embedded-engine relation. -/
def stmtUpdateEmbedded : Stmt := { operation := CmdType.update, rtable := some [true] }

/-- Environment whose source text is `"COPY t"`. -/
def envCopy : ExecEnv :=
  { envAllOk with currentQuery := Except.ok ['C', 'O', 'P', 'Y', ' ', 't'] }

/-- A DELETE over an embedded-engine relation (so that only the bulk-load
text check can cause delegation). -/
def stmtDeleteEmbedded : Stmt := { operation := CmdType.delete, rtable := some [true] }

/-- Environment with pending buffered writes whose flush fails. -/
def envFlushFails : ExecEnv :=
  { envAllOk with
    needsCommit := Except.ok true
    commitWriter := Except.error (PErr.other 1) }

/-- A search index whose schema compiler rejects every query expression. -/
def idxCompileFails : SearchIndex :=
  { numDocs := 0, ranked := [], compile := fun _ => Except.error (PErr.other 7) }

/-- A config with no explicit limit or offset. -/
def cfgDefault : SearchConfig := { query := 0, limit_rows := none, offset_rows := none }

/-- A config with the explicit limit 0. -/
def cfgZeroLimit : SearchConfig := { query := 0, limit_rows := some 0, offset_rows := none }

/-- The spec's dedup example: ranked input
[(key=5,(seg0,1)), (key=7,(seg0,2)), (key=5,(seg0,3))] on a three-document
snapshot with no explicit limit or offset. -/
def exSt : SearchState :=
  { tquery := 0
    config := cfgDefault
    numDocs := 3
    ranked := [(⟨10, 5⟩, ⟨0, 1⟩), (⟨9, 7⟩, ⟨0, 2⟩), (⟨8, 5⟩, ⟨0, 3⟩)] }

/-! ## Theorems -/

/-- C10: whenever the dialect accepts a source text but produces zero
parsed statements (as the external parser does for empty or comment-only
text), `create_logical_plan` indexes the first statement of an empty list
and panics, instead of returning a parse error: the translation function
is partial at its public interface. -/
theorem create_logical_plan_empty_ast_panics
    (ctxResult : Except PErr Unit) (planOf : RawStmt → Except PErr LogicalPlan) :
    create_logical_plan (Except.ok []) ctxResult planOf = RunResult.panicked := rfl

/-- C9: when the config's query expression fails to compile against the
schema, `SearchState::new` panics (aborts the operation); on no input does
it return a recoverable error value to the caller. -/
theorem searchState_new_compile_failure_fatal (idx : SearchIndex) (cfg : SearchConfig) :
    (∀ e, idx.compile cfg.query = Except.error e →
      SearchState.new idx cfg = RunResult.panicked) ∧
    (∀ e2, SearchState.new idx cfg ≠ RunResult.err e2) := by
  unfold SearchState.new
  cases h : idx.compile cfg.query <;> simp

/-- C9 witness: a schema compiler that rejects the query expression makes
`SearchState::new` panic. -/
theorem searchState_new_compile_failure_fatal_witness :
    SearchState.new idxCompileFails cfgDefault = RunResult.panicked :=
  (searchState_new_compile_failure_fatal idxCompileFails cfgDefault).1 (PErr.other 7) rfl

/-- C4 counterexample: the claim "the effective limit used by search() is
always ≥ 1" fails at the concrete config with the explicit limit 0 — the
guard only protects the default path, an explicit `limit_rows = 0` is
passed through unchanged. -/
theorem effectiveLimit_explicit_zero :
    effectiveLimit cfgZeroLimit 5 = 0 ∧ ¬ 1 ≤ effectiveLimit cfgZeroLimit 5 := by
  decide

/-- C4 (amended): when `limit_rows` is unspecified the effective limit
used by `search` equals the snapshot's document count if positive and 1 if
the snapshot is empty — hence it is ≥ 1 on that path; an explicit
`limit_rows = n` is used unchanged (so the bound ≥ 1 holds only for
n ≥ 1); the effective offset is the explicit value or else 0. -/
theorem effectiveLimit_offset_defaults (cfg : SearchConfig) (numDocs : Nat) :
    (cfg.limit_rows = none →
      effectiveLimit cfg numDocs = (if 0 < numDocs then numDocs else 1) ∧
      1 ≤ effectiveLimit cfg numDocs) ∧
    (∀ n, cfg.limit_rows = some n → effectiveLimit cfg numDocs = n) ∧
    (cfg.offset_rows = none → effectiveOffset cfg = 0) ∧
    (∀ n, cfg.offset_rows = some n → effectiveOffset cfg = n) := by
  obtain ⟨qy, lr, offr⟩ := cfg
  refine ⟨?_, ?_, ?_, ?_⟩
  · rintro h
    cases h
    constructor
    · simp [effectiveLimit]
    · simp only [effectiveLimit, Option.getD_none]
      split <;> omega
  · rintro n h
    cases h
    simp [effectiveLimit]
  · rintro h
    cases h
    simp [effectiveOffset]
  · rintro n h
    cases h
    simp [effectiveOffset]

/-- C4 witness: with no explicit limit on a three-document snapshot the
effective limit is 3 and the effective offset is 0. -/
theorem effectiveLimit_offset_defaults_witness :
    effectiveLimit cfgDefault 3 = (if 0 < 3 then 3 else 1) ∧
    1 ≤ effectiveLimit cfgDefault 3 ∧
    effectiveOffset cfgDefault = 0 :=
  ⟨((effectiveLimit_offset_defaults cfgDefault 3).1 rfl).1,
   ((effectiveLimit_offset_defaults cfgDefault 3).1 rfl).2,
   (effectiveLimit_offset_defaults cfgDefault 3).2.2.1 rfl⟩

/-- C8: when buffered writes are pending (`needs_commit()` returns true),
the blocking flush is the interceptor's first observable action on every
path, it happens exactly once, and a flush failure is propagated
immediately: the invocation returns the flush error with no handler, no
translation and no continuation having run. -/
theorem executor_run_flush_first (env : ExecEnv) (stmt : Stmt)
    (h : env.needsCommit = Except.ok true) :
    (executor_run env stmt).1.head? = some Event.flush ∧
    countEvent (executor_run env stmt).1 Event.flush = 1 ∧
    (∀ e, env.commitWriter = Except.error e →
      executor_run env stmt = ([Event.flush], RunResult.err e)) := by
  cases hcw : env.commitWriter with
  | error e0 =>
    simp [executor_run, h, hcw, countEvent]
  | ok u =>
    cases hq : env.currentQuery with
    | error e1 => simp [executor_run, h, hcw, hq, countEvent]
    | ok q =>
      cases hopv : stmt.operation
      case insert =>
        cases hir : env.insertResult with
        | error e2 => simp [executor_run, h, hcw, hq, hopv, hir, countEvent]
        | ok u2 => simp [executor_run, h, hcw, hq, hopv, hir, countEvent]
      all_goals (
        cases hrt : stmt.rtable with
        | none => simp [executor_run, h, hcw, hq, hopv, hrt, countEvent]
        | some l =>
          by_cases hic : is_column (some l) = true
          · by_cases hsw : startsWithText copyLit (lowerText q) = true
            · simp [executor_run, h, hcw, hq, hopv, hrt, hic, hsw, countEvent]
            · cases hcl : create_logical_plan (env.parse q) env.ctxResult env.planOf with
              | ok p =>
                simp [executor_run, h, hcw, hq, hopv, hrt, hic, hsw, hcl, countEvent]
              | err e3 =>
                simp [executor_run, h, hcw, hq, hopv, hrt, hic, hsw, hcl, countEvent]
              | panicked =>
                simp [executor_run, h, hcw, hq, hopv, hrt, hic, hsw, hcl, countEvent]
          · simp [executor_run, h, hcw, hq, hopv, hrt, hic, countEvent])

/-- C8 witness: with pending writes and a failing flush the interceptor
returns the flush error after the flush alone. -/
theorem executor_run_flush_first_witness :
    executor_run envFlushFails stmtSelectEmbedded
      = ([Event.flush], RunResult.err (PErr.other 1)) :=
  (executor_run_flush_first envFlushFails stmtSelectEmbedded rfl).2.2 (PErr.other 1) rfl

/-- C3: whenever the flush and source-text extraction succeed (and, for an
INSERT, the insert handler succeeds) but translating the source text to a
logical plan fails — dialect parse error or catalog resolution error —
the interceptor invokes the continuation exactly once and returns success
(fail-open). -/
theorem executor_run_translation_failure_fail_open
    (env : ExecEnv) (stmt : Stmt) (q : QueryText) (e : PErr)
    (hflush : env.needsCommit = Except.ok false ∨
      (env.needsCommit = Except.ok true ∧ env.commitWriter = Except.ok ()))
    (hq : env.currentQuery = Except.ok q)
    (hins : stmt.operation = CmdType.insert → env.insertResult = Except.ok ())
    (hplan : create_logical_plan (env.parse q) env.ctxResult env.planOf = RunResult.err e) :
    countEvent (executor_run env stmt).1 Event.prevHook = 1 ∧
    (executor_run env stmt).2 = RunResult.ok () := by
  rcases hflush with h | ⟨h, hcw⟩ <;> (
    cases hopv : stmt.operation
    case insert =>
      first
      | simp [executor_run, h, hcw, hq, hins hopv, hopv, countEvent]
      | simp [executor_run, h, hq, hins hopv, hopv, countEvent]
    all_goals (
      cases hrt : stmt.rtable with
      | none =>
        first
        | simp [executor_run, h, hcw, hq, hopv, hrt, countEvent]
        | simp [executor_run, h, hq, hopv, hrt, countEvent]
      | some l =>
        by_cases hic : is_column (some l) = true
        · by_cases hsw : startsWithText copyLit (lowerText q) = true
          · first
            | simp [executor_run, h, hcw, hq, hopv, hrt, hic, hsw, countEvent]
            | simp [executor_run, h, hq, hopv, hrt, hic, hsw, countEvent]
          · first
            | simp [executor_run, h, hcw, hq, hopv, hrt, hic, hsw, hplan, countEvent]
            | simp [executor_run, h, hq, hopv, hrt, hic, hsw, hplan, countEvent]
        · first
          | simp [executor_run, h, hcw, hq, hopv, hrt, hic, countEvent]
          | simp [executor_run, h, hq, hopv, hrt, hic, countEvent]))

/-- C3 witness: a SELECT over an embedded relation whose text the dialect
rejects is delegated once and succeeds. -/
theorem executor_run_translation_failure_fail_open_witness :
    countEvent (executor_run envParseFails stmtSelectEmbedded).1 Event.prevHook = 1 ∧
    (executor_run envParseFails stmtSelectEmbedded).2 = RunResult.ok () :=
  executor_run_translation_failure_fail_open envParseFails stmtSelectEmbedded
    ['s', 'e', 'l', 'e', 'c', 't'] (PErr.dataFusion 0) (Or.inl rfl) rfl (fun _ => rfl) rfl

/-- C5: an UPDATE whose range table references an embedded-engine relation
and whose translation succeeds returns the typed `NotSupported::Update`
failure and never invokes the continuation. -/
theorem executor_run_update_not_supported
    (env : ExecEnv) (stmt : Stmt) (q : QueryText) (rt : List Bool) (p : LogicalPlan)
    (hflush : env.needsCommit = Except.ok false ∨
      (env.needsCommit = Except.ok true ∧ env.commitWriter = Except.ok ()))
    (hq : env.currentQuery = Except.ok q)
    (hop : stmt.operation = CmdType.update)
    (hrt : stmt.rtable = some rt)
    (hic : is_column (some rt) = true)
    (hsw : startsWithText copyLit (lowerText q) = false)
    (hplan : create_logical_plan (env.parse q) env.ctxResult env.planOf = RunResult.ok p) :
    (executor_run env stmt).2 = RunResult.err PErr.notSupportedUpdate ∧
    countEvent (executor_run env stmt).1 Event.prevHook = 0 := by
  rcases hflush with h | ⟨h, hcw⟩ <;>
    first
    | simp [executor_run, h, hcw, hq, hop, hrt, hic, hsw, hplan, countEvent]
    | simp [executor_run, h, hq, hop, hrt, hic, hsw, hplan, countEvent]

/-- C5 witness: a translatable UPDATE on an embedded relation yields the
typed unsupported-operation failure with no continuation call. -/
theorem executor_run_update_not_supported_witness :
    (executor_run envUpdate stmtUpdateEmbedded).2 = RunResult.err PErr.notSupportedUpdate ∧
    countEvent (executor_run envUpdate stmtUpdateEmbedded).1 Event.prevHook = 0 :=
  executor_run_update_not_supported envUpdate stmtUpdateEmbedded ['u'] [true] 0
    (Or.inl rfl) rfl rfl rfl rfl (by decide) rfl

/-- C7: whenever the lowercased source text starts with the bulk-load
literal `"copy"`, the interceptor delegates to the continuation exactly
once and returns success, for every operation kind and every range table
(provided flush, text extraction and — for INSERT — the insert handler
succeed), and the plan translator is never invoked. -/
theorem executor_run_copy_delegates
    (env : ExecEnv) (stmt : Stmt) (q : QueryText)
    (hflush : env.needsCommit = Except.ok false ∨
      (env.needsCommit = Except.ok true ∧ env.commitWriter = Except.ok ()))
    (hq : env.currentQuery = Except.ok q)
    (hsw : startsWithText copyLit (lowerText q) = true)
    (hins : stmt.operation = CmdType.insert → env.insertResult = Except.ok ()) :
    countEvent (executor_run env stmt).1 Event.prevHook = 1 ∧
    (executor_run env stmt).2 = RunResult.ok () ∧
    Event.translate ∉ (executor_run env stmt).1 := by
  rcases hflush with h | ⟨h, hcw⟩ <;> (
    cases hopv : stmt.operation
    case insert =>
      first
      | simp [executor_run, h, hcw, hq, hins hopv, hopv, countEvent]
      | simp [executor_run, h, hq, hins hopv, hopv, countEvent]
    all_goals (
      cases hrt : stmt.rtable with
      | none =>
        first
        | simp [executor_run, h, hcw, hq, hopv, hrt, countEvent]
        | simp [executor_run, h, hq, hopv, hrt, countEvent]
      | some l =>
        first
        | simp [executor_run, h, hcw, hq, hopv, hrt, hsw, countEvent]
        | simp [executor_run, h, hq, hopv, hrt, hsw, countEvent]))

/-- C7 witness: the text `"COPY t"` on a DELETE over an embedded relation
is delegated without translation. -/
theorem executor_run_copy_delegates_witness :
    countEvent (executor_run envCopy stmtDeleteEmbedded).1 Event.prevHook = 1 ∧
    (executor_run envCopy stmtDeleteEmbedded).2 = RunResult.ok () ∧
    Event.translate ∉ (executor_run envCopy stmtDeleteEmbedded).1 :=
  executor_run_copy_delegates envCopy stmtDeleteEmbedded
    ['C', 'O', 'P', 'Y', ' ', 't'] (Or.inl rfl) rfl (by decide) (fun _ => rfl)

/-- C1 counterexample: on an INSERT into an embedded-engine relation with
every collaborator succeeding, `executor_run` invokes the insert handler
AND the continuation on the same statement — refuting both "exactly one
continuation invocation OR exactly one embedded-handler invocation, never
both" and "INSERT ... never the continuation". -/
theorem executor_run_insert_runs_both :
    countEvent (executor_run envAllOk stmtInsertEmbedded).1 Event.insertH = 1 ∧
    countEvent (executor_run envAllOk stmtInsertEmbedded).1 Event.prevHook = 1 ∧
    (executor_run envAllOk stmtInsertEmbedded).2 = RunResult.ok () := by
  have hh : executor_run envAllOk stmtInsertEmbedded
      = ([Event.insertH, Event.prevHook], RunResult.ok ()) := rfl
  rw [hh]
  decide

/-- C1 (amended): per statement, the continuation and each handler run at
most once; for non-INSERT statements the insert handler never runs and at
most one of continuation / select handler / delete handler runs (UPDATE on
an embedded relation after successful translation runs none of them); for
INSERT statements the select and delete handlers never run, and whenever
the insert handler runs and the invocation succeeds the continuation runs
as well — both on the same statement. -/
theorem executor_run_dispatch (env : ExecEnv) (stmt : Stmt) :
    countEvent (executor_run env stmt).1 Event.prevHook ≤ 1 ∧
    countEvent (executor_run env stmt).1 Event.insertH ≤ 1 ∧
    countEvent (executor_run env stmt).1 Event.selectH +
      countEvent (executor_run env stmt).1 Event.deleteH ≤ 1 ∧
    (stmt.operation ≠ CmdType.insert →
      countEvent (executor_run env stmt).1 Event.insertH = 0 ∧
      countEvent (executor_run env stmt).1 Event.prevHook +
        countEvent (executor_run env stmt).1 Event.selectH +
        countEvent (executor_run env stmt).1 Event.deleteH ≤ 1) ∧
    (stmt.operation = CmdType.insert →
      countEvent (executor_run env stmt).1 Event.selectH = 0 ∧
      countEvent (executor_run env stmt).1 Event.deleteH = 0 ∧
      (Event.insertH ∈ (executor_run env stmt).1 →
        (executor_run env stmt).2 = RunResult.ok () →
        Event.prevHook ∈ (executor_run env stmt).1)) := by
  cases hnc : env.needsCommit with
  | error e0 => simp [executor_run, hnc, countEvent]
  | ok nc =>
    cases nc with
    | true =>
      cases hcw : env.commitWriter with
      | error e1 => simp [executor_run, hnc, hcw, countEvent]
      | ok u =>
        cases hq : env.currentQuery with
        | error e2 => simp [executor_run, hnc, hcw, hq, countEvent]
        | ok q =>
          cases hopv : stmt.operation
          case insert =>
            cases hir : env.insertResult with
            | error e3 => simp [executor_run, hnc, hcw, hq, hopv, hir, countEvent]
            | ok u2 => simp [executor_run, hnc, hcw, hq, hopv, hir, countEvent]
          all_goals (
            cases hrt : stmt.rtable with
            | none => simp [executor_run, hnc, hcw, hq, hopv, hrt, countEvent]
            | some l =>
              by_cases hic : is_column (some l) = true
              · by_cases hsw : startsWithText copyLit (lowerText q) = true
                · simp [executor_run, hnc, hcw, hq, hopv, hrt, hic, hsw, countEvent]
                · cases hcl : create_logical_plan (env.parse q) env.ctxResult env.planOf with
                  | ok p =>
                    simp [executor_run, hnc, hcw, hq, hopv, hrt, hic, hsw, hcl, countEvent]
                  | err e4 =>
                    simp [executor_run, hnc, hcw, hq, hopv, hrt, hic, hsw, hcl, countEvent]
                  | panicked =>
                    simp [executor_run, hnc, hcw, hq, hopv, hrt, hic, hsw, hcl, countEvent]
              · simp [executor_run, hnc, hcw, hq, hopv, hrt, hic, countEvent])
    | false =>
      cases hq : env.currentQuery with
      | error e2 => simp [executor_run, hnc, hq, countEvent]
      | ok q =>
        cases hopv : stmt.operation
        case insert =>
          cases hir : env.insertResult with
          | error e3 => simp [executor_run, hnc, hq, hopv, hir, countEvent]
          | ok u2 => simp [executor_run, hnc, hq, hopv, hir, countEvent]
        all_goals (
          cases hrt : stmt.rtable with
          | none => simp [executor_run, hnc, hq, hopv, hrt, countEvent]
          | some l =>
            by_cases hic : is_column (some l) = true
            · by_cases hsw : startsWithText copyLit (lowerText q) = true
              · simp [executor_run, hnc, hq, hopv, hrt, hic, hsw, countEvent]
              · cases hcl : create_logical_plan (env.parse q) env.ctxResult env.planOf with
                | ok p =>
                  simp [executor_run, hnc, hq, hopv, hrt, hic, hsw, hcl, countEvent]
                | err e4 =>
                  simp [executor_run, hnc, hq, hopv, hrt, hic, hsw, hcl, countEvent]
                | panicked =>
                  simp [executor_run, hnc, hq, hopv, hrt, hic, hsw, hcl, countEvent]
            · simp [executor_run, hnc, hq, hopv, hrt, hic, countEvent])

/-- C1 witness: at a concrete INSERT into an embedded relation, the
select and delete handlers do not run and a successful invocation with the
insert handler run also ran the continuation. -/
theorem executor_run_dispatch_witness :
    countEvent (executor_run envAllOk stmtInsertEmbedded).1 Event.selectH = 0 ∧
    countEvent (executor_run envAllOk stmtInsertEmbedded).1 Event.deleteH = 0 ∧
    (Event.insertH ∈ (executor_run envAllOk stmtInsertEmbedded).1 →
      (executor_run envAllOk stmtInsertEmbedded).2 = RunResult.ok () →
      Event.prevHook ∈ (executor_run envAllOk stmtInsertEmbedded).1) :=
  (executor_run_dispatch envAllOk stmtInsertEmbedded).2.2.2.2 rfl

/-! ### Dedup map and ordering helper lemmas -/

theorem addrLt_irrefl (a : DocAddress) : addrLt a a = false := by
  simp [addrLt]

theorem addrLt_asymm (a b : DocAddress) (h : addrLt a b = true) : addrLt b a = false := by
  simp [addrLt] at *
  omega

theorem addrLt_le_trans (a b c : DocAddress)
    (h1 : addrLt b a = false) (h2 : addrLt c b = false) : addrLt c a = false := by
  simp [addrLt] at *
  omega

theorem addrLt_ge_of_gt (c e r : DocAddress)
    (h1 : addrLt c e = true) (h2 : addrLt r e = false) : addrLt r c = false := by
  simp [addrLt] at *
  omega

theorem mapLookup_append_of_none (m1 m2 : DedupMap) (k : Int)
    (h : mapLookup m1 k = none) : mapLookup (m1 ++ m2) k = mapLookup m2 k := by
  induction m1 with
  | nil => simp
  | cons p rest ih =>
    by_cases hp : p.1 = k
    · simp [mapLookup, hp] at h
    · simp [mapLookup, hp] at h ⊢
      exact ih h

theorem mapLookup_append_of_some (m1 m2 : DedupMap) (k : Int) (w : Entry)
    (h : mapLookup m1 k = some w) : mapLookup (m1 ++ m2) k = some w := by
  induction m1 with
  | nil => simp [mapLookup] at h
  | cons p rest ih =>
    by_cases hp : p.1 = k
    · simp [mapLookup, hp] at h ⊢
      exact h
    · simp [mapLookup, hp] at h ⊢
      exact ih h

theorem mapLookup_singleton_ne (k j : Int) (v : Entry) (hj : j ≠ k) :
    mapLookup [(k, v)] j = none := by
  have hk : ¬ k = j := fun hh => hj hh.symm
  simp [mapLookup, hk]

theorem mapIns_lookup_self (m : DedupMap) (k : Int) (v : Entry) (w : Entry)
    (h : mapLookup m k = some w) :
    mapLookup (m.map fun p => if p.1 = k then (k, v) else p) k = some v := by
  induction m with
  | nil => simp [mapLookup] at h
  | cons p rest ih =>
    by_cases hp : p.1 = k
    · simp [mapLookup, hp]
    · simp [mapLookup, hp] at h ⊢
      exact ih h

theorem mapIns_lookup_ne (m : DedupMap) (k : Int) (v : Entry) (j : Int) (hj : j ≠ k) :
    mapLookup (m.map fun p => if p.1 = k then (k, v) else p) j = mapLookup m j := by
  have hkj : ¬ k = j := fun hh => hj hh.symm
  induction m with
  | nil => simp
  | cons p rest ih =>
    by_cases hp : p.1 = k
    · simp [mapLookup, hp, hkj]
      exact ih
    · by_cases hpj : p.1 = j
      · simp [mapLookup, hp, hpj, hj]
      · simp [mapLookup, hp, hpj]
        exact ih

theorem mapInsert_lookup_self (m : DedupMap) (k : Int) (v : Entry) :
    mapLookup (mapInsert m k v).1 k = some v := by
  unfold mapInsert
  cases h : mapLookup m k with
  | none =>
    simp only []
    rw [mapLookup_append_of_none m [(k, v)] k h]
    simp [mapLookup]
  | some w =>
    simp only []
    exact mapIns_lookup_self m k v w h

theorem mapInsert_lookup_other (m : DedupMap) (k : Int) (v : Entry) (j : Int) (hj : j ≠ k) :
    mapLookup (mapInsert m k v).1 j = mapLookup m j := by
  unfold mapInsert
  cases h : mapLookup m k with
  | none =>
    simp only []
    cases hmj : mapLookup m j with
    | none =>
      rw [mapLookup_append_of_none m [(k, v)] j hmj, mapLookup_singleton_ne k j v hj]
    | some w =>
      rw [mapLookup_append_of_some m [(k, v)] j w hmj]
  | some w =>
    simp only []
    exact mapIns_lookup_ne m k v j hj

theorem mapLookup_erase_ne (m : DedupMap) (k j : Int) (hj : j ≠ k) :
    mapLookup (eraseKey m k) j = mapLookup m j := by
  have hkj : ¬ k = j := fun hh => hj hh.symm
  induction m with
  | nil => simp [eraseKey]
  | cons p rest ih =>
    by_cases hp : p.1 = k
    · simp [eraseKey, List.filter, hp, mapLookup, hkj] at ih ⊢
      exact ih
    · by_cases hpj : p.1 = j
      · simp [eraseKey, List.filter, hp, mapLookup, hpj, hj]
      · simp [eraseKey, List.filter, hp, mapLookup, hpj] at ih ⊢
        exact ih


theorem firstSeenFrom_mem (ks : List Int) : ∀ (seen : List Int) (j : Int),
    j ∈ firstSeenFrom seen ks → j ∉ seen ∧ j ∈ ks := by
  induction ks with
  | nil =>
    intro seen j h
    simp [firstSeenFrom] at h
  | cons k rest ih =>
    intro seen j h
    by_cases hk : k ∈ seen
    · simp only [firstSeenFrom, if_pos hk] at h
      obtain ⟨h1, h2⟩ := ih seen j h
      exact ⟨h1, List.mem_cons_of_mem k h2⟩
    · simp only [firstSeenFrom, if_neg hk, List.mem_cons] at h
      rcases h with h | h
      · subst h
        exact ⟨hk, List.mem_cons_self _ _⟩
      · obtain ⟨h1, h2⟩ := ih (k :: seen) j h
        refine ⟨fun hc => h1 (List.mem_cons_of_mem _ hc), List.mem_cons_of_mem k h2⟩

theorem firstSeenFrom_nodup (ks : List Int) : ∀ seen : List Int,
    (firstSeenFrom seen ks).Nodup := by
  induction ks with
  | nil =>
    intro seen
    simp [firstSeenFrom]
  | cons k rest ih =>
    intro seen
    by_cases hk : k ∈ seen
    · simp only [firstSeenFrom, if_pos hk]
      exact ih seen
    · simp only [firstSeenFrom, if_neg hk, List.nodup_cons]
      refine ⟨fun hc => ?_, ih (k :: seen)⟩
      exact (firstSeenFrom_mem rest (k :: seen) k hc).1 (List.mem_cons_self _ _)

theorem firstSeenFrom_length (ks : List Int) : ∀ seen : List Int,
    (firstSeenFrom seen ks).length ≤ ks.length := by
  induction ks with
  | nil =>
    intro seen
    simp [firstSeenFrom]
  | cons k rest ih =>
    intro seen
    by_cases hk : k ∈ seen
    · simp only [firstSeenFrom, if_pos hk, List.length_cons]
      exact Nat.le_succ_of_le (ih seen)
    · simp only [firstSeenFrom, if_neg hk, List.length_cons]
      exact Nat.succ_le_succ (ih (k :: seen))

theorem removeLoop_eq (ks : List Int) : ∀ m : DedupMap, ks.Nodup →
    removeLoop ks m = ks.filterMap (fun k => mapLookup m k) := by
  induction ks with
  | nil =>
    intro m _
    simp [removeLoop]
  | cons k rest ih =>
    intro m hnd
    rw [List.nodup_cons] at hnd
    have hlk : ∀ j ∈ rest, mapLookup (eraseKey m k) j = mapLookup m j := by
      intro j hj
      exact mapLookup_erase_ne m k j (fun hh => hnd.1 (hh ▸ hj))
    have hrest : removeLoop rest (eraseKey m k)
        = rest.filterMap (fun j => mapLookup m j) := by
      rw [ih (eraseKey m k) hnd.2]
      exact List.filterMap_congr hlk
    cases hmk : mapLookup m k with
    | none => simp [removeLoop, hmk, hrest, List.filterMap_cons]
    | some v => simp [removeLoop, hmk, hrest, List.filterMap_cons]



theorem runKey_some_total (k : Int) (rs : List Entry) : ∀ c : Entry,
    ∃ res, runKey k (some c) rs = some res := by
  induction rs with
  | nil =>
    intro c
    exact ⟨c, rfl⟩
  | cons e rest ih =>
    intro c
    by_cases he : e.1.key = k
    · cases haddr : addrLt c.2 e.2 with
      | false =>
        simp only [runKey, if_pos he, haddr]
        exact ih c
      | true =>
        simp only [runKey, if_pos he, haddr]
        exact ih e
    · simp only [runKey, if_neg he]
      exact ih c

theorem runKey_ge (k : Int) (rs : List Entry) : ∀ (cur : Option Entry) (res : Entry),
    runKey k cur rs = some res →
    (∀ c, cur = some c → addrLt res.2 c.2 = false) ∧
    (∀ e ∈ rs, e.1.key = k → addrLt res.2 e.2 = false) := by
  induction rs with
  | nil =>
    intro cur res h
    refine ⟨fun c hc => ?_, by simp⟩
    rw [hc] at h
    injection h with h2
    subst h2
    exact addrLt_irrefl c.2
  | cons e rest ih =>
    intro cur res h
    by_cases he : e.1.key = k
    · cases cur with
      | none =>
        simp only [runKey, if_pos he] at h
        have ihh := ih (some e) res h
        have hres_e : addrLt res.2 e.2 = false := ihh.1 e rfl
        refine ⟨fun c hc => Option.noConfusion hc, ?_⟩
        intro e2 he2 hk2
        rcases List.mem_cons.mp he2 with rfl | hmem
        · exact hres_e
        · exact ihh.2 e2 hmem hk2
      | some c0 =>
        cases haddr : addrLt c0.2 e.2 with
        | true =>
          simp only [runKey, if_pos he, haddr] at h
          have ihh := ih (some e) res h
          have hres_e : addrLt res.2 e.2 = false := ihh.1 e rfl
          have hres_c0 : addrLt res.2 c0.2 = false :=
            addrLt_ge_of_gt c0.2 e.2 res.2 haddr hres_e
          refine ⟨fun c hc => ?_, ?_⟩
          · injection hc with hc2
            exact hc2 ▸ hres_c0
          · intro e2 he2 hk2
            rcases List.mem_cons.mp he2 with rfl | hmem
            · exact hres_e
            · exact ihh.2 e2 hmem hk2
        | false =>
          simp only [runKey, if_pos he, haddr] at h
          have ihh := ih (some c0) res h
          have hres_c0 : addrLt res.2 c0.2 = false := ihh.1 c0 rfl
          have hres_e : addrLt res.2 e.2 = false :=
            addrLt_le_trans e.2 c0.2 res.2 haddr hres_c0
          refine ⟨fun c hc => ?_, ?_⟩
          · injection hc with hc2
            exact hc2 ▸ hres_c0
          · intro e2 he2 hk2
            rcases List.mem_cons.mp he2 with rfl | hmem
            · exact hres_e
            · exact ihh.2 e2 hmem hk2
    · simp only [runKey, if_neg he] at h
      have ihh := ih cur res h
      refine ⟨ihh.1, ?_⟩
      intro e2 he2 hk2
      rcases List.mem_cons.mp he2 with rfl | hmem
      · exact absurd hk2 he
      · exact ihh.2 e2 hmem hk2

theorem runKey_mem (k : Int) (rs : List Entry) : ∀ (cur : Option Entry) (res : Entry),
    runKey k cur rs = some res → cur = some res ∨ (res ∈ rs ∧ res.1.key = k) := by
  induction rs with
  | nil =>
    intro cur res h
    exact Or.inl h
  | cons e rest ih =>
    intro cur res h
    by_cases he : e.1.key = k
    · cases cur with
      | none =>
        simp only [runKey, if_pos he] at h
        rcases ih (some e) res h with h2 | h2
        · injection h2 with h3
          subst h3
          exact Or.inr ⟨List.mem_cons_self _ _, he⟩
        · exact Or.inr ⟨List.mem_cons_of_mem e h2.1, h2.2⟩
      | some c0 =>
        cases haddr : addrLt c0.2 e.2 with
        | false =>
          simp only [runKey, if_pos he, haddr] at h
          rcases ih (some c0) res h with h2 | h2
          · exact Or.inl h2
          · exact Or.inr ⟨List.mem_cons_of_mem e h2.1, h2.2⟩
        | true =>
          simp only [runKey, if_pos he, haddr] at h
          rcases ih (some e) res h with h2 | h2
          · injection h2 with h3
            subst h3
            exact Or.inr ⟨List.mem_cons_self _ _, he⟩
          · exact Or.inr ⟨List.mem_cons_of_mem e h2.1, h2.2⟩
    · simp only [runKey, if_neg he] at h
      rcases ih cur res h with h2 | h2
      · exact Or.inl h2
      · exact Or.inr ⟨List.mem_cons_of_mem e h2.1, h2.2⟩

theorem runKey_none_total_of_mem (k : Int) (rs : List Entry)
    (h : k ∈ rs.map fun e => e.1.key) : ∃ res, runKey k none rs = some res := by
  induction rs with
  | nil => simp at h
  | cons e rest ih =>
    by_cases he : e.1.key = k
    · simp only [runKey, if_pos he]
      exact runKey_some_total k rest e
    · simp only [runKey, if_neg he]
      apply ih
      simp only [List.map_cons, List.mem_cons] at h
      rcases h with h | h
      · exact absurd h.symm he
      · exact h



theorem dedupLoop_lookup (rs : List Entry) : ∀ (m : DedupMap) (ord : List Int) (k : Int),
    mapLookup (dedupLoop rs m ord).1 k = runKey k (mapLookup m k) rs := by
  induction rs with
  | nil =>
    intro m ord k
    rfl
  | cons e rest ih =>
    intro m ord k
    by_cases hk : e.1.key = k
    · subst hk
      cases hm : mapLookup m e.1.key with
      | none =>
        have h1 : dedupLoop (e :: rest) m ord
            = dedupLoop rest (m ++ [(e.1.key, e)]) (ord ++ [e.1.key]) := by
          simp [dedupLoop, hm, mapInsert]
        rw [h1, ih]
        rw [mapLookup_append_of_none m _ _ hm]
        rw [show mapLookup [(e.1.key, e)] e.1.key = some e from by simp [mapLookup]]
        simp [runKey]
      | some w =>
        cases haddr : addrLt w.2 e.2 with
        | true =>
          have h1 : dedupLoop (e :: rest) m ord
              = dedupLoop rest (m.map fun p => if p.1 = e.1.key then (e.1.key, e) else p) ord := by
            simp [dedupLoop, hm, haddr, mapInsert]
          rw [h1, ih]
          rw [mapIns_lookup_self m e.1.key e w hm]
          simp [runKey, haddr]
        | false =>
          have h1 : dedupLoop (e :: rest) m ord = dedupLoop rest m ord := by
            simp [dedupLoop, hm, haddr]
          rw [h1, ih, hm]
          simp [runKey, haddr]
    · cases hm : mapLookup m e.1.key with
      | none =>
        have h1 : dedupLoop (e :: rest) m ord
            = dedupLoop rest (m ++ [(e.1.key, e)]) (ord ++ [e.1.key]) := by
          simp [dedupLoop, hm, mapInsert]
        rw [h1, ih]
        have h2 : mapLookup (m ++ [(e.1.key, e)]) k = mapLookup m k := by
          cases hmk : mapLookup m k with
          | none =>
            rw [mapLookup_append_of_none m _ k hmk,
              mapLookup_singleton_ne _ _ _ (fun hh => hk hh.symm)]
          | some w => rw [mapLookup_append_of_some m _ k w hmk]
        rw [h2]
        simp [runKey, hk]
      | some w =>
        cases haddr : addrLt w.2 e.2 with
        | true =>
          have h1 : dedupLoop (e :: rest) m ord
              = dedupLoop rest (m.map fun p => if p.1 = e.1.key then (e.1.key, e) else p) ord := by
            simp [dedupLoop, hm, haddr, mapInsert]
          rw [h1, ih, mapIns_lookup_ne m e.1.key e k (fun hh => hk hh.symm)]
          simp [runKey, hk]
        | false =>
          have h1 : dedupLoop (e :: rest) m ord = dedupLoop rest m ord := by
            simp [dedupLoop, hm, haddr]
          rw [h1, ih]
          simp [runKey, hk]



theorem dedupLoop_ord (rs : List Entry) : ∀ (m : DedupMap) (ord seen : List Int),
    (∀ j, j ∈ seen ↔ (mapLookup m j).isSome = true) →
    (dedupLoop rs m ord).2 = ord ++ firstSeenFrom seen (rs.map fun e => e.1.key) := by
  induction rs with
  | nil =>
    intro m ord seen hseen
    simp [dedupLoop, firstSeenFrom]
  | cons e rest ih =>
    intro m ord seen hseen
    cases hm : mapLookup m e.1.key with
    | none =>
      have hnotin : e.1.key ∉ seen := by
        intro hc
        have h2 := (hseen e.1.key).mp hc
        rw [hm] at h2
        simp at h2
      have hmi : mapInsert m e.1.key e = (m ++ [(e.1.key, e)], true) := by
        simp [mapInsert, hm]
      have h1 : dedupLoop (e :: rest) m ord
          = dedupLoop rest (m ++ [(e.1.key, e)]) (ord ++ [e.1.key]) := by
        simp [dedupLoop, hm, hmi]
      rw [h1]
      have hseen2 : ∀ j, j ∈ (e.1.key :: seen) ↔
          (mapLookup (m ++ [(e.1.key, e)]) j).isSome = true := by
        intro j
        by_cases hj : j = e.1.key
        · subst hj
          rw [mapLookup_append_of_none m _ _ hm]
          simp [mapLookup]
        · have h2 : mapLookup (m ++ [(e.1.key, e)]) j = mapLookup m j := by
            cases hmj : mapLookup m j with
            | none =>
              rw [mapLookup_append_of_none m _ j hmj, mapLookup_singleton_ne _ _ _ hj]
            | some w => rw [mapLookup_append_of_some m _ j w hmj]
          rw [List.mem_cons, h2]
          simp [hj, hseen j]
      rw [ih (m ++ [(e.1.key, e)]) (ord ++ [e.1.key]) (e.1.key :: seen) hseen2]
      simp [firstSeenFrom, hnotin, List.append_assoc]
    | some w =>
      have hin : e.1.key ∈ seen := (hseen e.1.key).mpr (by rw [hm]; rfl)
      cases haddr : addrLt w.2 e.2 with
      | true =>
        have hmi : mapInsert m e.1.key e
            = (m.map fun p => if p.1 = e.1.key then (e.1.key, e) else p, false) := by
          simp [mapInsert, hm]
        have h1 : dedupLoop (e :: rest) m ord
            = dedupLoop rest (m.map fun p => if p.1 = e.1.key then (e.1.key, e) else p) ord := by
          simp [dedupLoop, hm, haddr, hmi]
        rw [h1]
        have hseen2 : ∀ j, j ∈ seen ↔
            (mapLookup (m.map fun p => if p.1 = e.1.key then (e.1.key, e) else p) j).isSome
              = true := by
          intro j
          by_cases hj : j = e.1.key
          · subst hj
            rw [mapIns_lookup_self m e.1.key e w hm]
            simp [hin]
          · rw [mapIns_lookup_ne m e.1.key e j hj]
            exact hseen j
        rw [ih _ ord seen hseen2]
        simp [firstSeenFrom, hin]
      | false =>
        have h1 : dedupLoop (e :: rest) m ord = dedupLoop rest m ord := by
          simp [dedupLoop, hm, haddr]
        rw [h1, ih m ord seen hseen]
        simp [firstSeenFrom, hin]



theorem filterMap_keys (f : Int → Option Entry) (ks : List Int)
    (h : ∀ k ∈ ks, ∃ res, f k = some res ∧ res.1.key = k) :
    ((ks.filterMap f).map fun e => e.1.key) = ks := by
  induction ks with
  | nil => rfl
  | cons k rest ih =>
    obtain ⟨res, hres, hkey⟩ := h k (List.mem_cons_self _ _)
    rw [List.filterMap_cons_some hres, List.map_cons, hkey,
      ih (fun j hj => h j (List.mem_cons_of_mem _ hj))]

theorem dedupList_spec (rs : List Entry) :
    (dedupList rs).map (fun e => e.1.key) = firstSeen (rs.map fun e => e.1.key) ∧
    ((dedupList rs).map fun e => e.1.key).Nodup ∧
    (dedupList rs).length ≤ rs.length ∧
    (∀ e2 ∈ dedupList rs, e2 ∈ rs ∧
      ∀ e3 ∈ rs, e3.1.key = e2.1.key → addrLt e2.2 e3.2 = false) := by
  have hlookup : ∀ k, mapLookup (dedupLoop rs [] []).1 k = runKey k none rs := by
    intro k
    exact dedupLoop_lookup rs [] [] k
  have hord : (dedupLoop rs [] []).2 = firstSeen (rs.map fun e => e.1.key) := by
    have h := dedupLoop_ord rs [] [] [] (by intro j; simp [mapLookup])
    simpa [firstSeen] using h
  have hnd : (dedupLoop rs [] []).2.Nodup := by
    rw [hord]
    exact firstSeenFrom_nodup _ _
  have hout : dedupList rs
      = (dedupLoop rs [] []).2.filterMap (fun k => mapLookup (dedupLoop rs [] []).1 k) := by
    unfold dedupList
    exact removeLoop_eq _ _ hnd
  have hkeys : ∀ k ∈ (dedupLoop rs [] []).2,
      ∃ res, mapLookup (dedupLoop rs [] []).1 k = some res ∧ res.1.key = k := by
    intro k hk
    have hk2 : k ∈ rs.map (fun e => e.1.key) := by
      rw [hord] at hk
      exact (firstSeenFrom_mem _ _ _ hk).2
    obtain ⟨res, hres⟩ := runKey_none_total_of_mem k rs hk2
    refine ⟨res, by rw [hlookup k, hres], ?_⟩
    rcases runKey_mem k rs none res hres with h2 | h2
    · exact Option.noConfusion h2
    · exact h2.2
  have hmapkeys : (dedupList rs).map (fun e => e.1.key) = (dedupLoop rs [] []).2 := by
    rw [hout]
    exact filterMap_keys _ _ hkeys
  refine ⟨?_, ?_, ?_, ?_⟩
  · rw [hmapkeys, hord]
  · rw [hmapkeys]
    exact hnd
  · have hlen : (dedupList rs).length = (dedupLoop rs [] []).2.length := by
      rw [← hmapkeys, List.length_map]
    rw [hlen, hord]
    have h2 := firstSeenFrom_length (rs.map fun e => e.1.key) []
    rw [List.length_map] at h2
    exact h2
  · intro e2 he2
    rw [hout, List.mem_filterMap] at he2
    obtain ⟨k, hk, hfk⟩ := he2
    rw [hlookup k] at hfk
    rcases runKey_mem k rs none e2 hfk with h2 | h2
    · exact Option.noConfusion h2
    refine ⟨h2.1, ?_⟩
    intro e3 he3 hk3
    exact (runKey_ge k rs none e2 hfk).2 e3 he3 (by rw [hk3, h2.2])



/-- C2: for every ranked result sequence, `search_dedup` emits each key
at most once, in the keys' first-seen order from the ranked input; every
emitted entry is an input entry whose address is lexicographically maximal
among the input entries sharing its key; and on the spec's example input
[(key=5,(seg0,1)), (key=7,(seg0,2)), (key=5,(seg0,3))] the output is
[(key=5,(seg0,3)), (key=7,(seg0,2))]. -/
theorem search_dedup_correct (st : SearchState) :
    (st.search_dedup.map fun e => e.1.key) = firstSeen (st.search.map fun e => e.1.key) ∧
    (∀ e2 ∈ st.search_dedup, e2 ∈ st.search ∧
      ∀ e3 ∈ st.search, e3.1.key = e2.1.key → addrLt e2.2 e3.2 = false) ∧
    exSt.search_dedup = [(⟨8, 5⟩, ⟨0, 3⟩), (⟨9, 7⟩, ⟨0, 2⟩)] := by
  refine ⟨(dedupList_spec st.search).1, (dedupList_spec st.search).2.2.2, ?_⟩
  decide

/-- C2 witness: the first-seen-order property evaluated at the example
snapshot. -/
theorem search_dedup_correct_witness :
    (exSt.search_dedup.map fun e => e.1.key) = firstSeen (exSt.search.map fun e => e.1.key) :=
  (search_dedup_correct exSt).1

/-- C6: `search_dedup` output has no duplicate keys, its key set is a
subset of the key set of the `search` result it was built from, and its
length is at most that result's length. -/
theorem search_dedup_algebra (st : SearchState) :
    (st.search_dedup.map fun e => e.1.key).Nodup ∧
    (∀ k ∈ (st.search_dedup.map fun e => e.1.key), k ∈ (st.search.map fun e => e.1.key)) ∧
    st.search_dedup.length ≤ st.search.length := by
  refine ⟨(dedupList_spec st.search).2.1, ?_, (dedupList_spec st.search).2.2.1⟩
  intro k hk
  have hk2 : k ∈ (dedupList st.search).map (fun e => e.1.key) := hk
  rw [(dedupList_spec st.search).1] at hk2
  exact (firstSeenFrom_mem _ _ _ hk2).2

/-- C6 witness: no-duplicate-keys and the length bound at the example
snapshot. -/
theorem search_dedup_algebra_witness :
    (exSt.search_dedup.map fun e => e.1.key).Nodup ∧
    exSt.search_dedup.length ≤ exSt.search.length :=
  ⟨(search_dedup_algebra exSt).1, (search_dedup_algebra exSt).2.2⟩


end ParadeDB
